import Mathlib

/-!
Verification of the cursor logic in `src/charts/line/Cursor.tsx`
(react-native-wagmi-charts).

JS numbers are modelled by `ℚ`; array indices (JS numbers holding integers,
which may go negative in the binary-search loop) by `ℤ`.  `Math.floor(a / 2)`
on integers is `Int.fdiv a 2`.  The `while` loop of `findClosestIndex` becomes
a well-founded recursion; its two exits (the `return mid` exact match and
falling out of the loop) are distinguished by a sum type.
-/

namespace Cursor

/-- Evaluate `a.fdiv 2` as Euclidean division so that `omega` can reason
about it (the two agree for the positive divisor `2`). -/
theorem fdiv_two (a : ℤ) : a.fdiv 2 = a / 2 := Int.fdiv_eq_ediv a (by norm_num)

/-- Array read `timestamps[i]` at integer index `i`.  An out-of-range read
(never reached under the guards of `findClosestIndex`, see the C8 theorem)
yields a junk default `0`. -/
def getE (ts : List ℚ) (i : ℤ) : ℚ :=
  if i < 0 then 0 else ts.getD i.toNat 0

/-- The `while (left <= right)` loop body of `findClosestIndex`
(`Cursor.tsx` lines 43–55).  `Sum.inl mid` models the `return mid`
exact-match exit; `Sum.inr (left, right)` models falling out of the loop
with the final values of `left` and `right`. -/
def fciLoop (ts : List ℚ) (x : ℚ) (left right : ℤ) : ℤ ⊕ ℤ × ℤ :=
  if h : left ≤ right then
    -- const mid = Math.floor((left + right) / 2);
    if getE ts ((left + right).fdiv 2) = x then Sum.inl ((left + right).fdiv 2)
    else if getE ts ((left + right).fdiv 2) < x then
      fciLoop ts x ((left + right).fdiv 2 + 1) right
    else
      fciLoop ts x left ((left + right).fdiv 2 - 1)
  else Sum.inr (left, right)
termination_by (right + 1 - left).toNat
decreasing_by
  · simp only [fdiv_two]; omega
  · simp only [fdiv_two]; omega

/-- The function `findClosestIndex(timestamps, xRelative)` (`Cursor.tsx` lines 31–68). -/
def findClosestIndex (ts : List ℚ) (x : ℚ) : ℤ :=
  -- let left = 0; let right = timestamps.length - 1;
  -- if (xRelative <= timestamps[left]) return left;
  if x ≤ getE ts 0 then 0
  -- if (xRelative >= timestamps[right]) return right;
  else if getE ts ((ts.length : ℤ) - 1) ≤ x then (ts.length : ℤ) - 1
  else
    match fciLoop ts x 0 ((ts.length : ℤ) - 1) with
    | Sum.inl mid => mid
    | Sum.inr (l, r) =>
      -- const leftDiff = Math.abs(timestamps[left] - xRelative); ...
      if |getE ts l - x| ≤ |getE ts r - x| then l else r

/-- Sortedness assumption on the key sequence: weakly ascending
(duplicates allowed), as in the spec's data model. -/
def SortedAsc (ts : List ℚ) : Prop := ts.Sorted (· ≤ ·)

instance (ts : List ℚ) : Decidable (SortedAsc ts) := by
  unfold SortedAsc List.Sorted; infer_instance

/-- Strict sortedness (no duplicate keys). -/
def SortedLt (ts : List ℚ) : Prop := ts.Sorted (· < ·)

instance (ts : List ℚ) : Decidable (SortedLt ts) := by
  unfold SortedLt List.Sorted; infer_instance

/-- An in-range `getE` read is a real list element. -/
lemma getE_mem (ts : List ℚ) {i : ℤ} (hi : 0 ≤ i) (hn : i < (ts.length : ℤ)) :
    getE ts i ∈ ts := by
  unfold getE
  rw [if_neg (by omega)]
  have h : i.toNat < ts.length := by omega
  rw [List.getD_eq_getElem?_getD, List.getElem?_eq_getElem h]
  exact List.getElem_mem h

/-- Monotone access for weakly sorted keys. -/
lemma getE_mono (ts : List ℚ) (hs : SortedAsc ts) {i j : ℤ}
    (hi : 0 ≤ i) (hij : i ≤ j) (hj : j < (ts.length : ℤ)) :
    getE ts i ≤ getE ts j := by
  unfold getE
  rw [if_neg (by omega), if_neg (by omega)]
  have hi' : i.toNat < ts.length := by omega
  have hj' : j.toNat < ts.length := by omega
  rw [List.getD_eq_getElem?_getD, List.getElem?_eq_getElem hi',
    List.getD_eq_getElem?_getD, List.getElem?_eq_getElem hj']
  exact hs.rel_get_of_le (show (⟨i.toNat, hi'⟩ : Fin ts.length) ≤ ⟨j.toNat, hj'⟩ by
    simp [Fin.le_def]; omega)

/-- Strictly monotone access for strictly sorted keys. -/
lemma getE_strict_mono (ts : List ℚ) (hs : SortedLt ts) {i j : ℤ}
    (hi : 0 ≤ i) (hij : i < j) (hj : j < (ts.length : ℤ)) :
    getE ts i < getE ts j := by
  unfold getE
  rw [if_neg (by omega), if_neg (by omega)]
  have hi' : i.toNat < ts.length := by omega
  have hj' : j.toNat < ts.length := by omega
  rw [List.getD_eq_getElem?_getD, List.getElem?_eq_getElem hi',
    List.getD_eq_getElem?_getD, List.getElem?_eq_getElem hj']
  exact hs.rel_get_of_lt (show (⟨i.toNat, hi'⟩ : Fin ts.length) < ⟨j.toNat, hj'⟩ by
    simp [Fin.lt_def]; omega)

/-- Invariant of the binary-search loop: the interval `[left, right]` may
still contain the query, everything strictly left of `left` is below the
query, everything strictly right of `right` is above it. -/
def LoopInv (ts : List ℚ) (x : ℚ) (left right : ℤ) : Prop :=
  0 ≤ left ∧ right ≤ (ts.length : ℤ) - 1 ∧ left ≤ right + 1 ∧
  (∀ j : ℤ, 0 ≤ j → j < left → getE ts j < x) ∧
  (∀ j : ℤ, right < j → j ≤ (ts.length : ℤ) - 1 → x < getE ts j)

/-- Post-condition of the binary-search loop, for weakly sorted keys:
an exact-match exit returns an in-interval index holding the query;
a fall-through exit has `left = right + 1` and classifies every index. -/
lemma fciLoop_post (ts : List ℚ) (x : ℚ) (hs : SortedAsc ts) :
    ∀ left right : ℤ, LoopInv ts x left right →
    (∀ m, fciLoop ts x left right = Sum.inl m →
      left ≤ m ∧ m ≤ right ∧ getE ts m = x) ∧
    (∀ l r, fciLoop ts x left right = Sum.inr (l, r) →
      l = r + 1 ∧ LoopInv ts x l r) := by
  intro left right
  induction left, right using fciLoop.induct ts x with
  | case1 left right hlr heq =>
    intro hinv
    rw [fciLoop, dif_pos hlr, if_pos heq]
    constructor
    · rintro m hm
      injection hm with hm
      subst hm
      refine ⟨?_, ?_, heq⟩ <;> (rw [fdiv_two]; omega)
    · rintro l r hm
      cases hm
  | case2 left right hlr hne hlt ih =>
    intro hinv
    rw [fciLoop, dif_pos hlr, if_neg hne, if_pos hlt]
    obtain ⟨h1, h2, h3, h4, h5⟩ := hinv
    have hmid1 : left ≤ (left + right).fdiv 2 := by rw [fdiv_two]; omega
    have hmid2 : (left + right).fdiv 2 ≤ right := by rw [fdiv_two]; omega
    have hinv' : LoopInv ts x ((left + right).fdiv 2 + 1) right := by
      refine ⟨by omega, h2, by omega, ?_, h5⟩
      intro j hj0 hj
      rcases lt_or_le j left with hcase | hcase
      · exact h4 j hj0 hcase
      · calc getE ts j ≤ getE ts ((left + right).fdiv 2) :=
              getE_mono ts hs hj0 (by omega) (by omega)
          _ < x := hlt
    obtain ⟨ihl, ihr⟩ := ih hinv'
    refine ⟨?_, ihr⟩
    intro m hm
    obtain ⟨ha, hb, hc⟩ := ihl m hm
    exact ⟨by omega, hb, hc⟩
  | case3 left right hlr hne hge ih =>
    intro hinv
    rw [fciLoop, dif_pos hlr, if_neg hne, if_neg hge]
    obtain ⟨h1, h2, h3, h4, h5⟩ := hinv
    have hmid1 : left ≤ (left + right).fdiv 2 := by rw [fdiv_two]; omega
    have hmid2 : (left + right).fdiv 2 ≤ right := by rw [fdiv_two]; omega
    have hx : x < getE ts ((left + right).fdiv 2) :=
      lt_of_le_of_ne (le_of_not_lt hge) (fun h => hne h.symm)
    have hinv' : LoopInv ts x left ((left + right).fdiv 2 - 1) := by
      refine ⟨h1, by omega, by omega, h4, ?_⟩
      intro j hj hjn
      rcases lt_or_le right j with hcase | hcase
      · exact h5 j hcase hjn
      · calc x < getE ts ((left + right).fdiv 2) := hx
          _ ≤ getE ts j := getE_mono ts hs (by omega) (by omega) (by omega)
    obtain ⟨ihl, ihr⟩ := ih hinv'
    refine ⟨?_, ihr⟩
    intro m hm
    obtain ⟨ha, hb, hc⟩ := ihl m hm
    exact ⟨ha, by omega, hc⟩
  | case4 left right hlr =>
    intro hinv
    rw [fciLoop, dif_neg hlr]
    constructor
    · rintro m hm
      cases hm
    · rintro l r hm
      injection hm with hm
      injection hm with hm1 hm2
      subst hm1
      subst hm2
      refine ⟨?_, hinv⟩
      obtain ⟨-, -, h3, -, -⟩ := hinv
      omega

/-- The initial state of the binary-search loop satisfies the invariant. -/
lemma initial_inv (ts : List ℚ) (x : ℚ) : LoopInv ts x 0 ((ts.length : ℤ) - 1) :=
  ⟨le_refl 0, le_refl _, by omega,
    fun _ hj hj' => absurd hj' (by omega),
    fun _ hj hj' => absurd hj' (by omega)⟩

/-- Behaviour of `findClosestIndex` when the query lies strictly between the
first and last key: either the loop finds an exact match inside the range, or
it falls through at `left = right + 1` with every key classified strictly
below or strictly above the query, and the distance comparison decides. -/
lemma interior_case (ts : List ℚ) (x : ℚ) (hs : SortedAsc ts) (hne : ts ≠ [])
    (h0 : getE ts 0 < x) (h1 : x < getE ts ((ts.length : ℤ) - 1)) :
    (∃ m, fciLoop ts x 0 ((ts.length : ℤ) - 1) = Sum.inl m ∧
      0 ≤ m ∧ m ≤ (ts.length : ℤ) - 1 ∧ getE ts m = x ∧ findClosestIndex ts x = m) ∨
    (∃ l r, fciLoop ts x 0 ((ts.length : ℤ) - 1) = Sum.inr (l, r) ∧
      l = r + 1 ∧ 0 ≤ r ∧ l ≤ (ts.length : ℤ) - 1 ∧
      (∀ j : ℤ, 0 ≤ j → j < l → getE ts j < x) ∧
      (∀ j : ℤ, l ≤ j → j ≤ (ts.length : ℤ) - 1 → x < getE ts j) ∧
      findClosestIndex ts x = if |getE ts l - x| ≤ |getE ts r - x| then l else r) := by
  have hn : 1 ≤ ts.length := List.length_pos.mpr hne
  have hpost := fciLoop_post ts x hs 0 ((ts.length : ℤ) - 1) (initial_inv ts x)
  have hunf : findClosestIndex ts x =
      match fciLoop ts x 0 ((ts.length : ℤ) - 1) with
      | Sum.inl mid => mid
      | Sum.inr (l, r) => if |getE ts l - x| ≤ |getE ts r - x| then l else r := by
    rw [findClosestIndex, if_neg (not_le.mpr h0), if_neg (not_le.mpr h1)]
  rcases hres : fciLoop ts x 0 ((ts.length : ℤ) - 1) with m | ⟨l, r⟩
  · left
    obtain ⟨hm1, hm2, hm3⟩ := hpost.1 m hres
    exact ⟨m, rfl, hm1, hm2, hm3, by rw [hunf, hres]⟩
  · right
    obtain ⟨hlr, hinv⟩ := hpost.2 l r hres
    obtain ⟨hl0, hrn, hlr1, h4, h5⟩ := hinv
    have hr0 : 0 ≤ r := by
      by_contra hc
      have hx0 := h5 0 (by omega) (by omega)
      exact absurd h0 (not_lt.mpr hx0.le)
    have hln : l ≤ (ts.length : ℤ) - 1 := by
      by_contra hc
      have hxn := h4 ((ts.length : ℤ) - 1) (by omega) (by omega)
      exact absurd h1 (not_lt.mpr hxn.le)
    refine ⟨l, r, rfl, hlr, hr0, hln, h4, ?_, by rw [hunf, hres]⟩
    intro j hj hjn
    exact h5 j (by omega) hjn

/-- The returned index always lies in `[0, length - 1]`. -/
lemma fci_range (ts : List ℚ) (x : ℚ) (hs : SortedAsc ts) (hne : ts ≠ []) :
    0 ≤ findClosestIndex ts x ∧ findClosestIndex ts x ≤ (ts.length : ℤ) - 1 := by
  have hn : 1 ≤ ts.length := List.length_pos.mpr hne
  by_cases hg0 : x ≤ getE ts 0
  · rw [findClosestIndex, if_pos hg0]
    omega
  · by_cases hg1 : getE ts ((ts.length : ℤ) - 1) ≤ x
    · rw [findClosestIndex, if_neg hg0, if_pos hg1]
      omega
    · rcases interior_case ts x hs hne (not_le.mp hg0) (not_le.mp hg1) with
        ⟨m, -, hm1, hm2, -, heq⟩ | ⟨l, r, -, hlr, hr0, hln, -, -, heq⟩
      · rw [heq]
        omega
      · rw [heq]
        split <;> omega

/-- C1: Nearest-key correctness: for every non-empty ascending key sequence
`keys` and any query, the index returned by `findClosestIndex` points at a
closest key: `|keys[result] - query| <= |keys[j] - query|` for every valid
index `j`. -/
theorem C1_nearest_key (ts : List ℚ) (x : ℚ) (hs : SortedAsc ts) (hne : ts ≠ []) :
    ∀ j : ℤ, 0 ≤ j → j < (ts.length : ℤ) →
      |getE ts (findClosestIndex ts x) - x| ≤ |getE ts j - x| := by
  intro j hj0 hjn
  have hn : 1 ≤ ts.length := List.length_pos.mpr hne
  by_cases hg0 : x ≤ getE ts 0
  · rw [findClosestIndex, if_pos hg0]
    have h0j : getE ts 0 ≤ getE ts j := getE_mono ts hs (le_refl 0) hj0 hjn
    calc |getE ts 0 - x| = getE ts 0 - x := abs_of_nonneg (by linarith)
      _ ≤ getE ts j - x := by linarith
      _ ≤ |getE ts j - x| := le_abs_self _
  · by_cases hg1 : getE ts ((ts.length : ℤ) - 1) ≤ x
    · rw [findClosestIndex, if_neg hg0, if_pos hg1]
      have hjn' : getE ts j ≤ getE ts ((ts.length : ℤ) - 1) :=
        getE_mono ts hs hj0 (by omega) (by omega)
      calc |getE ts ((ts.length : ℤ) - 1) - x|
          = -(getE ts ((ts.length : ℤ) - 1) - x) := abs_of_nonpos (by linarith)
        _ ≤ -(getE ts j - x) := by linarith
        _ ≤ |getE ts j - x| := neg_le_abs _
    · rcases interior_case ts x hs hne (not_le.mp hg0) (not_le.mp hg1) with
        ⟨m, hres, hm1, hm2, hm3, heq⟩ |
        ⟨l, r, hres, hlr, hr0, hln, hlow, hhigh, heq⟩
      · rw [heq]
        calc |getE ts m - x| = 0 := by rw [hm3, sub_self, abs_zero]
          _ ≤ |getE ts j - x| := abs_nonneg _
      · rw [heq]
        have hxl : x < getE ts l := hhigh l (le_refl l) hln
        have hxr : getE ts r < x := hlow r hr0 (by omega)
        have hdl : |getE ts l - x| = getE ts l - x := abs_of_nonneg (by linarith)
        have hdr : |getE ts r - x| = -(getE ts r - x) := abs_of_nonpos (by linarith)
        rcases le_or_lt l j with hj | hj
        · have hlj : getE ts l ≤ getE ts j := getE_mono ts hs (by omega) hj (by omega)
          have habs : |getE ts j - x| = getE ts j - x := abs_of_nonneg (by linarith)
          split
          · linarith
          · next hc => rw [not_le] at hc; linarith
        · have hjr : getE ts j ≤ getE ts r := getE_mono ts hs hj0 (by omega) (by omega)
          have habs : |getE ts j - x| = -(getE ts j - x) := abs_of_nonpos (by linarith)
          split
          · next hc => linarith
          · linarith

/-- C1 witness: at keys `[0, 5, 10]` and query `7` the returned key is at
least as close as the key at index `2`. -/
theorem C1_nearest_key_witness :
    |getE [(0:ℚ), 5, 10] (findClosestIndex [(0:ℚ), 5, 10] 7) - 7| ≤
      |getE [(0:ℚ), 5, 10] 2 - 7| :=
  C1_nearest_key [(0:ℚ), 5, 10] 7 (by decide) (by decide) 2 (by decide) (by decide)

/-- C2: Tie-break rule as stated in the locator contract: for a query strictly
between the first and last key with no exact match, the loop exits with a pair
`(left, right)` and the function returns `left` when
`|keys[left]-query| <= |keys[right]-query|` and `right` otherwise; on an exact
distance tie the returned key is `>=` the query. -/
theorem C2_tie_break (ts : List ℚ) (x : ℚ) (hs : SortedAsc ts) (hne : ts ≠ [])
    (h0 : getE ts 0 < x) (h1 : x < getE ts ((ts.length : ℤ) - 1)) (hnm : x ∉ ts) :
    ∃ l r, fciLoop ts x 0 ((ts.length : ℤ) - 1) = Sum.inr (l, r) ∧
      findClosestIndex ts x = (if |getE ts l - x| ≤ |getE ts r - x| then l else r) ∧
      (|getE ts l - x| = |getE ts r - x| → x ≤ getE ts (findClosestIndex ts x)) := by
  rcases interior_case ts x hs hne h0 h1 with
    ⟨m, hres, hm1, hm2, hm3, heq⟩ |
    ⟨l, r, hres, hlr, hr0, hln, hlow, hhigh, heq⟩
  · exact absurd (hm3 ▸ getE_mem ts hm1 (by omega)) hnm
  · refine ⟨l, r, hres, heq, ?_⟩
    intro htie
    rw [heq, if_pos (le_of_eq htie)]
    exact (hhigh l (le_refl l) hln).le

/-- C2 witness: keys `[0, 10]`, query `5` (an exact tie). -/
theorem C2_tie_break_witness :
    ∃ l r, fciLoop [(0:ℚ), 10] 5 0 (((List.length [(0:ℚ), 10] : ℕ) : ℤ) - 1) =
        Sum.inr (l, r) ∧
      findClosestIndex [(0:ℚ), 10] 5 =
        (if |getE [(0:ℚ), 10] l - 5| ≤ |getE [(0:ℚ), 10] r - 5| then l else r) ∧
      (|getE [(0:ℚ), 10] l - 5| = |getE [(0:ℚ), 10] r - 5| →
        (5:ℚ) ≤ getE [(0:ℚ), 10] (findClosestIndex [(0:ℚ), 10] 5)) :=
  C2_tie_break [(0:ℚ), 10] 5 (by decide) (by decide) (by decide) (by decide) (by decide)

/-- C3 counterexample: `findClosestIndex([0, 10], 5)` does not return index 0:
at loop exit `left = 1`, `right = 0`, the distances tie, and the code returns
`left`, i.e. index 1. -/
theorem C3_counterexample : findClosestIndex [(0:ℚ), 10] 5 ≠ 0 := by
  simp +decide [findClosestIndex, fciLoop, getE]
  norm_num

/-- C3 amended: `findClosestIndex([0, 10], 5)` returns index 1 — on an exact
distance tie the `left` candidate wins, and at loop exit `left` indexes the
key greater than or equal to the query (here the key 10). -/
theorem C3_amended : findClosestIndex [(0:ℚ), 10] 5 = 1 := by
  simp +decide [findClosestIndex, fciLoop, getE]
  norm_num

/-- C5 counterexample: for the weakly ascending keys `[5, 5]` and query `5`
we have `query >= keys[last]`, yet the function returns `0`, not the last
index `1`, because the `query <= keys[0]` guard fires first. -/
theorem C5_counterexample :
    SortedAsc [(5:ℚ), 5] ∧
    getE [(5:ℚ), 5] (((List.length [(5:ℚ), 5] : ℕ) : ℤ) - 1) ≤ 5 ∧
    findClosestIndex [(5:ℚ), 5] 5 = 0 ∧
    (0 : ℤ) ≠ ((List.length [(5:ℚ), 5] : ℕ) : ℤ) - 1 := by
  refine ⟨by decide, by decide, ?_, by decide⟩
  simp +decide [findClosestIndex, getE]

/-- C5 amended: boundary clamping, with the first guard given priority:
`query <= keys[0]` returns `0`; `query >= keys[last]` returns the last index
provided `keys[0] < query`; a single-element sequence always returns `0`. -/
theorem C5_amended (ts : List ℚ) (x : ℚ) (_hne : ts ≠ []) :
    (x ≤ getE ts 0 → findClosestIndex ts x = 0) ∧
    (getE ts 0 < x → getE ts ((ts.length : ℤ) - 1) ≤ x →
      findClosestIndex ts x = (ts.length : ℤ) - 1) ∧
    (ts.length = 1 → findClosestIndex ts x = 0) := by
  refine ⟨?_, ?_, ?_⟩
  · intro h
    rw [findClosestIndex, if_pos h]
  · intro h0 h1
    rw [findClosestIndex, if_neg (not_le.mpr h0), if_pos h1]
  · intro hlen
    by_cases hg : x ≤ getE ts 0
    · rw [findClosestIndex, if_pos hg]
    · have h1 : ((ts.length : ℤ) - 1) = 0 := by omega
      rw [findClosestIndex, if_neg hg, h1, if_pos (not_le.mp hg).le]

/-- C5 witness: the three amended clauses at concrete inputs. -/
theorem C5_amended_witness :
    findClosestIndex [(0:ℚ), 10] 0 = 0 ∧
    findClosestIndex [(0:ℚ), 10] 99 = ((List.length [(0:ℚ), 10] : ℕ) : ℤ) - 1 ∧
    findClosestIndex [(7:ℚ)] 3 = 0 :=
  ⟨(C5_amended [(0:ℚ), 10] 0 (by decide)).1 (by decide),
   (C5_amended [(0:ℚ), 10] 99 (by decide)).2.1 (by decide) (by decide),
   (C5_amended [(7:ℚ)] 3 (by decide)).2.2 (by decide)⟩

/-- C6 counterexample: with duplicates allowed the claim fails: in
`[0, 5, 5, 9]` the interior index 2 holds the query 5, but the function
returns index 1 (the first probe hits the other duplicate). -/
theorem C6_counterexample :
    SortedAsc [(0:ℚ), 5, 5, 9] ∧
    (0:ℤ) < 2 ∧ (2:ℤ) < ((List.length [(0:ℚ), 5, 5, 9] : ℕ) : ℤ) - 1 ∧
    getE [(0:ℚ), 5, 5, 9] 2 = 5 ∧
    findClosestIndex [(0:ℚ), 5, 5, 9] 5 ≠ 2 := by
  refine ⟨by decide, by decide, by decide, by decide, ?_⟩
  simp +decide [findClosestIndex, fciLoop, getE]

/-- C6 amended: for strictly ascending keys, a query equal to the key at an
interior index `i` makes the loop return `Sum.inl i` (the exact-match
short-circuit, never reaching the distance comparison), and
`findClosestIndex` returns `i`. -/
theorem C6_amended (ts : List ℚ) (x : ℚ) (i : ℤ) (hs : SortedLt ts)
    (hi0 : 0 < i) (hin : i < (ts.length : ℤ) - 1) (hx : getE ts i = x) :
    fciLoop ts x 0 ((ts.length : ℤ) - 1) = Sum.inl i ∧
    findClosestIndex ts x = i := by
  have hsa : SortedAsc ts := List.Pairwise.imp (fun h => le_of_lt h) hs
  have hne : ts ≠ [] := by
    intro h
    subst h
    simp at hin
    omega
  have h0 : getE ts 0 < x := hx ▸ getE_strict_mono ts hs (le_refl 0) hi0 (by omega)
  have h1 : x < getE ts ((ts.length : ℤ) - 1) :=
    hx ▸ getE_strict_mono ts hs (by omega) hin (by omega)
  rcases interior_case ts x hsa hne h0 h1 with
    ⟨m, hres, hm1, hm2, hm3, heq⟩ |
    ⟨l, r, hres, hlr, hr0, hln, hlow, hhigh, heq⟩
  · have hmi : m = i := by
      by_contra hc
      rcases lt_or_gt_of_ne hc with hlt | hgt
      · have hmono := getE_strict_mono ts hs hm1 hlt (by omega)
        rw [hm3, hx] at hmono
        exact lt_irrefl x hmono
      · have hmono := getE_strict_mono ts hs (by omega) hgt (by omega)
        rw [hm3, hx] at hmono
        exact lt_irrefl x hmono
    exact ⟨hmi ▸ hres, hmi ▸ heq⟩
  · rcases lt_or_le i l with hcase | hcase
    · have hcontra := hlow i (by omega) hcase
      rw [hx] at hcontra
      exact absurd hcontra (lt_irrefl x)
    · have hcontra := hhigh i hcase (by omega)
      rw [hx] at hcontra
      exact absurd hcontra (lt_irrefl x)

/-- C6 witness: strictly ascending keys `[0, 5, 10]`, interior index 1,
query 5. -/
theorem C6_amended_witness :
    fciLoop [(0:ℚ), 5, 10] 5 0 (((List.length [(0:ℚ), 5, 10] : ℕ) : ℤ) - 1) =
      Sum.inl 1 ∧
    findClosestIndex [(0:ℚ), 5, 10] 5 = 1 :=
  C6_amended [(0:ℚ), 5, 10] 5 1 (by decide) (by decide) (by decide) (by decide)

/-- The curve-index correction (`Cursor.tsx` lines 123–128):
`pathDataDelta = Math.abs(path.curves.length - timestamps.length)` and
`closestPathCurve = Math.max(Math.min(closestIndex, path.curves.length + 1)
- pathDataDelta, 0)`. -/
def closestPathCurve (closestIndex curvesLength timestampsLength : ℤ) : ℤ :=
  max (min closestIndex (curvesLength + 1) - |curvesLength - timestampsLength|) 0

/-- The clamp written in the spec's words (section 4.2):
`clamp(x, lo, hi) = max(min(x, hi), lo)`.  Used only to compare the code's
fix-up against the spec's formula. -/
def specClamp (x lo hi : ℤ) : ℤ := max (min x hi) lo

/-- C4 counterexample: a path may have zero curves.  For the located index 0
(from the one-key sequence `[0]`), `segmentCount = 0` and `delta = 1`, the
code yields segment 0, which exceeds `segmentCount - 1 = -1`, so the claimed
bound fails. -/
theorem C4_counterexample :
    findClosestIndex [(0:ℚ)] 0 = 0 ∧ closestPathCurve 0 0 1 = 0 ∧
    ¬ closestPathCurve 0 0 1 ≤ 0 - 1 := by
  refine ⟨?_, by decide, by decide⟩
  simp +decide [findClosestIndex, getE]

/-- C4 amended: for a located index (`0 ≤ i ≤ n - 1`) and a path with at
least one curve (`1 ≤ s`), the corrected segment index equals
`clamp(min(i, s+1) - |s - n|, 0, s-1)` and never exceeds `s - 1`. -/
theorem C4_amended (i s n : ℤ) (_hi0 : 0 ≤ i) (hin : i ≤ n - 1) (hs1 : 1 ≤ s) :
    closestPathCurve i s n = specClamp (min i (s + 1) - |s - n|) 0 (s - 1) ∧
    closestPathCurve i s n ≤ s - 1 := by
  unfold closestPathCurve specClamp
  rcases le_total s n with h | h
  · rw [abs_of_nonpos (by omega)]
    constructor <;> omega
  · rw [abs_of_nonneg (by omega)]
    constructor <;> omega

/-- C4 witness: located index 1 in a three-key, three-curve path. -/
theorem C4_amended_witness :
    closestPathCurve 1 3 3 = specClamp (min 1 (3 + 1) - |(3:ℤ) - 3|) 0 (3 - 1) ∧
    closestPathCurve 1 3 3 ≤ 3 - 1 :=
  C4_amended 1 3 3 (by decide) (by decide) (by decide)

/-- C7: Monotonicity: for a fixed non-empty ascending key sequence, the
returned index is non-decreasing in the query. -/
theorem C7_monotone (ts : List ℚ) (x1 x2 : ℚ) (hs : SortedAsc ts) (hne : ts ≠ [])
    (h12 : x1 ≤ x2) : findClosestIndex ts x1 ≤ findClosestIndex ts x2 := by
  rcases eq_or_lt_of_le h12 with heq | hlt
  · rw [heq]
  · have hn : 1 ≤ ts.length := List.length_pos.mpr hne
    have hrange1 := fci_range ts x1 hs hne
    have hrange2 := fci_range ts x2 hs hne
    by_cases hg0 : x1 ≤ getE ts 0
    · have e1 : findClosestIndex ts x1 = 0 := by rw [findClosestIndex, if_pos hg0]
      rw [e1]
      exact hrange2.1
    · by_cases hg1 : getE ts ((ts.length : ℤ) - 1) ≤ x1
      · have e1 : findClosestIndex ts x1 = (ts.length : ℤ) - 1 := by
          rw [findClosestIndex, if_neg hg0, if_pos hg1]
        have hg0' : ¬ (x2 ≤ getE ts 0) := by
          rw [not_le] at hg0 ⊢
          linarith
        have hg1' : getE ts ((ts.length : ℤ) - 1) ≤ x2 := le_trans hg1 h12
        have e2 : findClosestIndex ts x2 = (ts.length : ℤ) - 1 := by
          rw [findClosestIndex, if_neg hg0', if_pos hg1']
        rw [e1, e2]
      · by_cases hg0' : x2 ≤ getE ts 0
        · exact absurd (le_trans hlt.le hg0') hg0
        · by_cases hg1' : getE ts ((ts.length : ℤ) - 1) ≤ x2
          · have e2 : findClosestIndex ts x2 = (ts.length : ℤ) - 1 := by
              rw [findClosestIndex, if_neg hg0', if_pos hg1']
            rw [e2]
            exact hrange1.2
          · rcases interior_case ts x1 hs hne (not_le.mp hg0) (not_le.mp hg1) with
              ⟨m1, hres1, hm11, hm12, hm13, heq1⟩ |
              ⟨l1, r1, hres1, hlr1, hr01, hln1, hlow1, hhigh1, heq1⟩ <;>
              rcases interior_case ts x2 hs hne (not_le.mp hg0') (not_le.mp hg1') with
                ⟨m2, hres2, hm21, hm22, hm23, heq2⟩ |
                ⟨l2, r2, hres2, hlr2, hr02, hln2, hlow2, hhigh2, heq2⟩
            · rw [heq1, heq2]
              by_contra hc
              rw [not_le] at hc
              have hmono := getE_mono ts hs hm21 hc.le (by omega)
              rw [hm13, hm23] at hmono
              exact absurd hlt (not_lt.mpr hmono)
            · rw [heq1, heq2]
              have hm1r2 : m1 ≤ r2 := by
                by_contra hc
                rw [not_le] at hc
                have hcl := hhigh2 m1 (by omega) (by omega)
                rw [hm13] at hcl
                exact absurd hlt (not_lt.mpr hcl.le)
              split <;> omega
            · rw [heq1, heq2]
              have hl1m2 : l1 ≤ m2 := by
                by_contra hc
                rw [not_le] at hc
                have hcl := hlow1 m2 hm21 hc
                rw [hm23] at hcl
                exact absurd hlt (not_lt.mpr hcl.le)
              split <;> omega
            · rw [heq1, heq2]
              have hl1l2 : l1 ≤ l2 := by
                by_contra hc
                rw [not_le] at hc
                have ha := hlow1 l2 (by omega) hc
                have hb := hhigh2 l2 (le_refl l2) hln2
                linarith
              rcases eq_or_lt_of_le hl1l2 with heql | hltl
              · subst heql
                have hr1r2 : r1 = r2 := by omega
                subst hr1r2
                have hxl1 : x1 < getE ts l1 := hhigh1 l1 (le_refl _) hln1
                have hxr1 : getE ts r1 < x1 := hlow1 r1 hr01 (by omega)
                have hxl2 : x2 < getE ts l1 := hhigh2 l1 (le_refl _) hln1
                have hxr2 : getE ts r1 < x2 := hlow2 r1 hr01 (by omega)
                by_cases hd1 : |getE ts l1 - x1| ≤ |getE ts r1 - x1|
                · have hd2 : |getE ts l1 - x2| ≤ |getE ts r1 - x2| := by
                    rw [abs_of_nonneg (by linarith), abs_of_nonpos (by linarith)] at hd1
                    rw [abs_of_nonneg (by linarith), abs_of_nonpos (by linarith)]
                    linarith
                  rw [if_pos hd1, if_pos hd2]
                · rw [if_neg hd1]
                  split <;> omega
              · split <;> split <;> omega

/-- C7 witness: queries 2 and 9 over `[0, 5, 10]`. -/
theorem C7_monotone_witness :
    findClosestIndex [(0:ℚ), 5, 10] 2 ≤ findClosestIndex [(0:ℚ), 5, 10] 9 :=
  C7_monotone [(0:ℚ), 5, 10] 2 9 (by decide) (by decide) (by decide)

/-- Checked array read: `none` exactly when the index is out of bounds.
Instrumentation used to state that `findClosestIndex` only ever reads
in-bounds indices (claim C8). -/
def getCk (ts : List ℚ) (i : ℤ) : Option ℚ :=
  if 0 ≤ i ∧ i < (ts.length : ℤ) then some (getE ts i) else none

/-- Variant of `fciLoop` with every array read checked. -/
def fciLoopCk (ts : List ℚ) (x : ℚ) (left right : ℤ) : Option (ℤ ⊕ ℤ × ℤ) :=
  if h : left ≤ right then
    (getCk ts ((left + right).fdiv 2)).bind fun v =>
      if v = x then some (Sum.inl ((left + right).fdiv 2))
      else if v < x then fciLoopCk ts x ((left + right).fdiv 2 + 1) right
      else fciLoopCk ts x left ((left + right).fdiv 2 - 1)
  else some (Sum.inr (left, right))
termination_by (right + 1 - left).toNat
decreasing_by
  · simp only [fdiv_two]; omega
  · simp only [fdiv_two]; omega

/-- Variant of `findClosestIndex` with every array read checked. -/
def findClosestIndexCk (ts : List ℚ) (x : ℚ) : Option ℤ :=
  (getCk ts 0).bind fun k0 =>
    if x ≤ k0 then some 0
    else (getCk ts ((ts.length : ℤ) - 1)).bind fun kn =>
      if kn ≤ x then some ((ts.length : ℤ) - 1)
      else (fciLoopCk ts x 0 ((ts.length : ℤ) - 1)).bind fun res =>
        match res with
        | Sum.inl mid => some mid
        | Sum.inr (l, r) =>
          (getCk ts l).bind fun kl =>
            (getCk ts r).bind fun kr =>
              some (if |kl - x| ≤ |kr - x| then l else r)

/-- Under the loop invariant, every read of the loop is in bounds: the
checked loop succeeds and agrees with the unchecked one. -/
lemma fciLoopCk_agree (ts : List ℚ) (x : ℚ) (hs : SortedAsc ts) :
    ∀ left right : ℤ, LoopInv ts x left right →
      fciLoopCk ts x left right = some (fciLoop ts x left right) := by
  intro left right
  induction left, right using fciLoop.induct ts x with
  | case1 left right hlr heq =>
    intro hinv
    obtain ⟨h1, h2, h3, h4, h5⟩ := hinv
    rw [fciLoopCk, fciLoop, dif_pos hlr, dif_pos hlr]
    have hmid : getCk ts ((left + right).fdiv 2) =
        some (getE ts ((left + right).fdiv 2)) := by
      unfold getCk
      rw [if_pos ⟨by rw [fdiv_two]; omega, by rw [fdiv_two]; omega⟩]
    rw [hmid, Option.some_bind, if_pos heq, if_pos heq]
  | case2 left right hlr hne hlt ih =>
    intro hinv
    obtain ⟨h1, h2, h3, h4, h5⟩ := hinv
    have hmid1 : left ≤ (left + right).fdiv 2 := by rw [fdiv_two]; omega
    have hmid2 : (left + right).fdiv 2 ≤ right := by rw [fdiv_two]; omega
    rw [fciLoopCk, fciLoop, dif_pos hlr, dif_pos hlr]
    have hmid : getCk ts ((left + right).fdiv 2) =
        some (getE ts ((left + right).fdiv 2)) := by
      unfold getCk
      rw [if_pos ⟨by omega, by omega⟩]
    rw [hmid, Option.some_bind, if_neg hne, if_neg hne, if_pos hlt, if_pos hlt]
    apply ih
    refine ⟨by omega, h2, by omega, ?_, h5⟩
    intro j hj0 hj
    rcases lt_or_le j left with hcase | hcase
    · exact h4 j hj0 hcase
    · calc getE ts j ≤ getE ts ((left + right).fdiv 2) :=
            getE_mono ts hs hj0 (by omega) (by omega)
        _ < x := hlt
  | case3 left right hlr hne hge ih =>
    intro hinv
    obtain ⟨h1, h2, h3, h4, h5⟩ := hinv
    have hmid1 : left ≤ (left + right).fdiv 2 := by rw [fdiv_two]; omega
    have hmid2 : (left + right).fdiv 2 ≤ right := by rw [fdiv_two]; omega
    rw [fciLoopCk, fciLoop, dif_pos hlr, dif_pos hlr]
    have hmid : getCk ts ((left + right).fdiv 2) =
        some (getE ts ((left + right).fdiv 2)) := by
      unfold getCk
      rw [if_pos ⟨by omega, by omega⟩]
    rw [hmid, Option.some_bind, if_neg hne, if_neg hne, if_neg hge, if_neg hge]
    have hx : x < getE ts ((left + right).fdiv 2) :=
      lt_of_le_of_ne (le_of_not_lt hge) (fun h => hne h.symm)
    apply ih
    refine ⟨h1, by omega, by omega, h4, ?_⟩
    intro j hj hjn
    rcases lt_or_le right j with hcase | hcase
    · exact h5 j hcase hjn
    · calc x < getE ts ((left + right).fdiv 2) := hx
        _ ≤ getE ts j := getE_mono ts hs (by omega) (by omega) (by omega)
  | case4 left right hlr =>
    intro hinv
    rw [fciLoopCk, fciLoop, dif_neg hlr, dif_neg hlr]

/-- C8: Totality and result range: on a non-empty ascending key sequence the
function (defined here by well-founded recursion on the strictly shrinking
interval) returns an index in `[0, length)`, and its fully bounds-checked
variant succeeds with the same result — every array access is in bounds. -/
theorem C8_total_in_range (ts : List ℚ) (x : ℚ) (hs : SortedAsc ts)
    (hne : ts ≠ []) :
    0 ≤ findClosestIndex ts x ∧ findClosestIndex ts x < (ts.length : ℤ) ∧
    findClosestIndexCk ts x = some (findClosestIndex ts x) := by
  have hn : 1 ≤ ts.length := List.length_pos.mpr hne
  obtain ⟨hlo, hhi⟩ := fci_range ts x hs hne
  refine ⟨hlo, by omega, ?_⟩
  have hk0 : getCk ts 0 = some (getE ts 0) := by
    unfold getCk
    rw [if_pos ⟨le_refl 0, by omega⟩]
  have hkn : getCk ts ((ts.length : ℤ) - 1) = some (getE ts ((ts.length : ℤ) - 1)) := by
    unfold getCk
    rw [if_pos ⟨by omega, by omega⟩]
  rw [findClosestIndexCk, hk0, Option.some_bind]
  by_cases hg0 : x ≤ getE ts 0
  · rw [if_pos hg0, findClosestIndex, if_pos hg0]
  · rw [if_neg hg0, hkn, Option.some_bind]
    by_cases hg1 : getE ts ((ts.length : ℤ) - 1) ≤ x
    · rw [if_pos hg1, findClosestIndex, if_neg hg0, if_pos hg1]
    · rw [if_neg hg1]
      rw [fciLoopCk_agree ts x hs 0 ((ts.length : ℤ) - 1) (initial_inv ts x),
        Option.some_bind]
      rcases interior_case ts x hs hne (not_le.mp hg0) (not_le.mp hg1) with
        ⟨m, hres, hm1, hm2, hm3, heq⟩ |
        ⟨l, r, hres, hlr, hr0, hln, hlow, hhigh, heq⟩
      · rw [hres, heq]
      · rw [hres]
        have hkl : getCk ts l = some (getE ts l) := by
          unfold getCk
          rw [if_pos ⟨by omega, by omega⟩]
        have hkr : getCk ts r = some (getE ts r) := by
          unfold getCk
          rw [if_pos ⟨by omega, by omega⟩]
        show (getCk ts l).bind (fun kl => (getCk ts r).bind fun kr =>
            some (if |kl - x| ≤ |kr - x| then l else r)) =
          some (findClosestIndex ts x)
        rw [hkl, Option.some_bind, hkr, Option.some_bind, heq]

/-- C8 witness: concrete run on `[0, 5, 10]` with query 7. -/
theorem C8_total_in_range_witness :
    0 ≤ findClosestIndex [(0:ℚ), 5, 10] 7 ∧
    findClosestIndex [(0:ℚ), 5, 10] 7 < ((List.length [(0:ℚ), 5, 10] : ℕ) : ℤ) ∧
    findClosestIndexCk [(0:ℚ), 5, 10] 7 = some (findClosestIndex [(0:ℚ), 5, 10] 7) :=
  C8_total_in_range [(0:ℚ), 5, 10] 7 (by decide) (by decide)

/-- The published shared reactive state of `useLineChart` that the gesture
handler writes: `isActive`, `currentX`, `currentIndex`. -/
structure CursorState where
  isActive : Bool
  currentX : ℚ
  currentIndex : ℤ

/-- The parts of the parsed `Path` the cursor reads: the `move` point's x and
the `to` x-coordinate of each curve (`path.curves[i].to.x`). -/
structure PathModel where
  moveX : ℚ
  curveToXs : List ℚ

/-- The props and context of `LineChartCursor` read by the gesture handler:
`pathWidth`, `snapToPoint`, `parsedPath`, the data timestamps, and
`xDomain`. -/
structure CursorConfig where
  width : ℚ
  snapToPoint : Bool
  parsedPath : Option PathModel
  dataTimestamps : List ℚ
  xDomain : Option (ℚ × ℚ)

/-- The values `xValues = data.map(({ timestamp }, i) => (xDomain ? timestamp : i))`
(`Cursor.tsx` lines 146–148). -/
def xValues (cfg : CursorConfig) : List ℚ :=
  match cfg.xDomain with
  | some _ => cfg.dataTimestamps
  | none => (List.range cfg.dataTimestamps.length).map (fun i => (i : ℚ))

/-- Inversion `scaleLinear().domain(domainArray).range([0, width]).invert(p)`:
the affine map sending pixel `p` back into the domain. -/
def scaleInvert (domain : ℚ × ℚ) (width : ℚ) (p : ℚ) : ℚ :=
  domain.1 + (p / width) * (domain.2 - domain.1)

/-- Rounding `Math.round` on a rational: round half toward positive infinity. -/
def jsRound (q : ℚ) : ℤ := ⌊q + 1 / 2⌋

/-- The helper `linearScalePositionAndIndex` (`Cursor.tsx` lines 94–135): inverts the
scale at the touch position, locates the closest index and writes it to
`currentIndex`.  The curve fix-up `closestPathCurve` is computed for the
`p0` read, but the `currentX.value = p0` write is commented out in the
source, so the state update is `currentIndex` only. -/
def linearScalePositionAndIndex (timestamps : List ℚ) (width : ℚ)
    (xPosition : ℚ) (path : Option PathModel) (xDomain : Option (ℚ × ℚ))
    (s : CursorState) : CursorState :=
  match path with
  | none => s
  | some p =>
    let domainArray := xDomain.getD (0, (timestamps.length : ℚ))
    let xRelative := scaleInvert domainArray width xPosition
    let closestIndex := findClosestIndex timestamps xRelative
    let _segment := closestPathCurve closestIndex
      ((p.curveToXs.length : ℕ) : ℤ) ((timestamps.length : ℕ) : ℤ)
    { s with currentIndex := closestIndex }

/-- The `onActive` gesture callback (`Cursor.tsx` lines 141–175). -/
def onActive (cfg : CursorConfig) (x : ℚ) (s : CursorState) : CursorState :=
  match cfg.parsedPath with
  | none => s
  | some _ =>
    -- const xPosition = Math.max(0, x <= width ? x : width);
    let xPosition := max 0 (if x ≤ cfg.width then x else cfg.width)
    let s1 : CursorState := { s with isActive := true }
    -- const boundedIndex = Math.max(minIndex, Math.round(xPosition / width / (1 / (data.length - 1))));
    let boundedIndex := max 0 (jsRound (xPosition / cfg.width /
      (1 / ((cfg.dataTimestamps.length : ℚ) - 1))))
    if cfg.snapToPoint then
      let s2 := linearScalePositionAndIndex (xValues cfg) cfg.width xPosition
        cfg.parsedPath cfg.xDomain s1
      { s2 with currentX := xPosition }
    else
      { s1 with currentX := xPosition, currentIndex := boundedIndex }

/-- The `onEnd` gesture callback (`Cursor.tsx` lines 177–180):
`isActive.value = false; currentIndex.value = -1;`. -/
def onEnd (s : CursorState) : CursorState :=
  { s with isActive := false, currentIndex := -1 }

/-- Gesture events delivered to the handler: pointer moves and the terminal
end event. -/
inductive GestureEv where
  | move (x : ℚ)
  | finish

/-- One step of the gesture handler. -/
def gestureStep (cfg : CursorConfig) (s : CursorState) : GestureEv → CursorState
  | GestureEv.move x => onActive cfg x s
  | GestureEv.finish => onEnd s

/-- C9: Gesture-end reset: after any sequence of move events, the end event
sets the published state to the inactive sentinel: `isActive = false` and
`currentIndex = -1`. -/
theorem C9_end_reset (cfg : CursorConfig) (s0 : CursorState) (moves : List ℚ) :
    (gestureStep cfg ((moves.map GestureEv.move).foldl (gestureStep cfg) s0)
      GestureEv.finish).isActive = false ∧
    (gestureStep cfg ((moves.map GestureEv.move).foldl (gestureStep cfg) s0)
      GestureEv.finish).currentIndex = -1 :=
  ⟨rfl, rfl⟩

/-- C10: Frame condition of the gesture-end handler: `onEnd` leaves
`currentX` unchanged, so the last cursor pixel position of the gesture
persists after the end event. -/
theorem C10_end_frame (cfg : CursorConfig) (s0 : CursorState) (moves : List ℚ) :
    (gestureStep cfg ((moves.map GestureEv.move).foldl (gestureStep cfg) s0)
      GestureEv.finish).currentX =
    ((moves.map GestureEv.move).foldl (gestureStep cfg) s0).currentX :=
  rfl

end Cursor
